import Mathlib

/-!
Verification of the weekly agent-performance aggregation and week-resolution
engine (`src/app.py`): the SQL aggregation query in `load_weekly_data`
(lines 55-77), and the pandas week-selection logic (lines 87-120).

Dates are embedded as integers counting days since 1970-01-01 (a Thursday),
via the standard civil-calendar conversion.  PostgreSQL `TO_DATE` with the
`DD/MM/YYYY` pattern is embedded as a validating parser returning `Option`;
an unparseable date aborts the whole query, which the load function models
with `Except`.  PostgreSQL `ROUND(x::NUMERIC/NULLIF(d,0)*100, 1)` is
embedded as `Option Nat`: `none` for the SQL NULL produced when the
denominator is 0, and otherwise the rate in tenths of a percent, rounded
half away from zero (all values here are nonnegative, so that is
`floor (1000*num/den + 1/2)`).
-/

namespace AskVinny

/-! ### Calendar dates -/

/-- Gregorian leap year test. -/
def isLeap (y : ℕ) : Bool := (y % 4 == 0 && y % 100 != 0) || (y % 400 == 0)

/-- Number of days in month `m` of year `y`. -/
def daysInMonth (y m : ℕ) : ℕ :=
  if m = 2 then (if isLeap y then 29 else 28)
  else if m = 4 ∨ m = 6 ∨ m = 9 ∨ m = 11 then 30
  else 31

/-- Days since 1970-01-01 of the civil date `y-m-d` (standard
days-from-civil algorithm). -/
def daysFromCivil (y m d : ℕ) : ℤ :=
  let y' : ℤ := if m ≤ 2 then (y : ℤ) - 1 else (y : ℤ)
  let era : ℤ := y'.fdiv 400
  let yoe : ℤ := y' - era * 400
  let mp : ℤ := ((m : ℤ) + 9) % 12
  let doy : ℤ := (153 * mp + 2).fdiv 5 + (d : ℤ) - 1
  let doe : ℤ := yoe * 365 + yoe.fdiv 4 - yoe.fdiv 100 + doy
  era * 146097 + doe - 719468

/-- Python-style weekday (Monday = 0 … Sunday = 6) of a day number;
day 0 = 1970-01-01 is a Thursday (weekday 3). -/
def weekdayMon (d : ℤ) : ℤ := (d + 3) % 7

/-- PostgreSQL `DATE_TRUNC('week', d)::date`: the Monday on or before `d`. -/
def truncWeek (d : ℤ) : ℤ := d - weekdayMon d

/-! ### Parsing `DD/MM/YYYY` (PostgreSQL `TO_DATE`) -/

/-- Split a character list on `/` separators. -/
def splitSlash : List Char → List (List Char)
  | [] => [[]]
  | c :: cs =>
    if c = '/' then [] :: splitSlash cs
    else
      match splitSlash cs with
      | [] => [[c]]
      | t :: ts => (c :: t) :: ts

def digitsToNatAux : List Char → ℕ → Option ℕ
  | [], acc => some acc
  | c :: cs, acc =>
    if c.isDigit then digitsToNatAux cs (acc * 10 + (c.toNat - 48)) else none

/-- Parse a nonempty all-digit character list as a natural number. -/
def digitsToNat (cs : List Char) : Option ℕ :=
  if cs.isEmpty then none else digitsToNatAux cs 0

/-- Embeds `TO_DATE(s, 'DD/MM/YYYY')`: parse and validate a day/month/year string,
returning the day number, or `none` when the text is unparseable or the
field values do not form a real date (PostgreSQL raises an error then). -/
def toDate (s : String) : Option ℤ :=
  match splitSlash s.data with
  | [ds, ms, ys] =>
    match digitsToNat ds, digitsToNat ms, digitsToNat ys with
    | some d, some m, some y =>
      if 1 ≤ y ∧ 1 ≤ m ∧ m ≤ 12 ∧ 1 ≤ d ∧ d ≤ daysInMonth y m then
        some (daysFromCivil y m d)
      else none
    | _, _, _ => none
  | _ => none

/-! ### Raw relations and the aggregation query -/

/-- A row of the `viewings` relation: `"personId"`, `"Agent"`, `"Date"`.
`personId` is nullable; the date is raw text. -/
structure RawViewing where
  personId : Option ℕ
  agent : String
  dateStr : String
deriving Repr, DecidableEq

/-- A row of the `prospects` relation: `"personId"`, `"Applied"`, `"Status"`,
all nullable. -/
structure Prospect where
  personId : Option ℕ
  applied : Option String
  status : Option String
deriving Repr, DecidableEq

/-- A row of the `cleaned_viewings` CTE: non-null person, parsed date. -/
structure CleanedViewing where
  personId : ℕ
  agent : String
  viewingDate : ℤ
deriving Repr, DecidableEq

/-- Error raised by the query: an unparseable `"Date"` value. -/
inductive LoadError where
  | dateFormat (s : String)
deriving Repr, DecidableEq

/-- Parse the date of each (non-null-person) viewing row in order; the
first unparseable date raises the error that aborts the whole query. -/
def parseAll : List (ℕ × String × String) → Except LoadError (List CleanedViewing)
  | [] => .ok []
  | x :: xs =>
    match toDate x.2.2 with
    | some d =>
      match parseAll xs with
      | .ok rest => .ok (⟨x.1, x.2.1, d⟩ :: rest)
      | .error e => .error e
    | none => .error (.dateFormat x.2.2)

/-- The `cleaned_viewings` CTE: drop rows with null `personId`, then parse
each remaining row's date; a single unparseable date aborts the query. -/
def cleanedViewings (vs : List RawViewing) :
    Except LoadError (List CleanedViewing) :=
  parseAll (vs.filterMap fun v => v.personId.map fun pid => (pid, v.agent, v.dateStr))

/-- Grouping key of the `weekly` CTE: `(week_start, agent)` (ordered as the
final `ORDER BY week_start, agent` sorts). -/
def viewKey (v : CleanedViewing) : ℤ × String := (truncWeek v.viewingDate, v.agent)

/-- The viewing rows of one `(week_start, agent)` group. -/
def groupViews (cleaned : List CleanedViewing) (k : ℤ × String) :
    List CleanedViewing :=
  cleaned.filter fun v => viewKey v = k

/-- The left-join partners of one viewing row: every matching prospect, or
the single null-padded row when no prospect matches.  A null prospect
`personId` matches nothing (SQL null equality). -/
def joinBlock (v : CleanedViewing) (ps : List Prospect) :
    List (CleanedViewing × Option Prospect) :=
  match ps.filter fun p => p.personId = some v.personId with
  | [] => [(v, none)]
  | ms => ms.map fun p => (v, some p)

/-- Embeds `LEFT JOIN prospects p ON v."personId" = p."personId"`: each viewing row
paired with every matching prospect, or with `none` when no prospect
matches. -/
def joinRows (views : List CleanedViewing) (ps : List Prospect) :
    List (CleanedViewing × Option Prospect) :=
  views.flatMap fun v => joinBlock v ps

/-- Embeds `COUNT(DISTINCT …)` over a list of person ids. -/
def countDistinct (l : List ℕ) : ℕ := l.dedup.length

/-- A join row passes a prospect-side test when its prospect exists and
satisfies the test; the NULL prospect of an unmatched left-join row never
passes (SQL three-valued logic makes its `CASE WHEN` condition not-true). -/
def matchTest (q : Prospect → Bool) (r : CleanedViewing × Option Prospect) : Bool :=
  match r.2 with
  | some p => q p
  | none => false

/-- The join row contributes to `applications` when its prospect exists and
has a non-null `"Applied"` marker. -/
def appliedRow : CleanedViewing × Option Prospect → Bool :=
  matchTest fun p => p.applied.isSome

/-- The join row contributes to `tenants` when its prospect exists and has
`"Status" = 'Current'` (a NULL status never equals `'Current'`). -/
def tenantRow : CleanedViewing × Option Prospect → Bool :=
  matchTest fun p => p.status = some "Current"

/-- Embeds `ROUND(num::NUMERIC / den * 100, 1)` for a positive denominator, in
tenths of a percent: `floor (1000*num/den + 1/2)` (round half away from
zero; everything is nonnegative). -/
def roundTenths (num den : ℕ) : ℕ := (2000 * num + den) / (2 * den)

/-- Embeds `ROUND(num::NUMERIC / NULLIF(den,0) * 100, 1)`: SQL NULL (`none`) when
the denominator is 0, otherwise the rounded rate in tenths of a percent. -/
def rateOf (num den : ℕ) : Option ℕ :=
  if den = 0 then none else some (roundTenths num den)

/-- An output row of the query: `WeeklyAgentMetric`. -/
structure Row where
  agent : String
  week_start : ℤ
  week_end : ℤ
  total_viewings : ℕ
  applications : ℕ
  tenants : ℕ
  view_to_app_rate : Option ℕ
  app_to_tenant_rate : Option ℕ
  total_conversion_rate : Option ℕ
deriving Repr, DecidableEq

/-- The `weekly` CTE aggregates for one group, and the outer `SELECT`'s
derived columns. -/
def mkRow (cleaned : List CleanedViewing) (ps : List Prospect)
    (k : ℤ × String) : Row :=
  let j := joinRows (groupViews cleaned k) ps
  let tv := countDistinct (j.map fun r => r.1.personId)
  let ap := countDistinct ((j.filter appliedRow).map fun r => r.1.personId)
  let tn := countDistinct ((j.filter tenantRow).map fun r => r.1.personId)
  { agent := k.2
    week_start := k.1
    week_end := k.1 + 6
    total_viewings := tv
    applications := ap
    tenants := tn
    view_to_app_rate := rateOf ap tv
    app_to_tenant_rate := rateOf tn ap
    total_conversion_rate := rateOf tn tv }

/-- Embeds `ORDER BY week_start, agent`: lexicographic order on the group key. -/
def keyLE (a b : ℤ × String) : Prop :=
  a.1 < b.1 ∨ (a.1 = b.1 ∧ a.2 ≤ b.2)

instance : DecidableRel keyLE := fun a b => by
  unfold keyLE; infer_instance

instance : IsTrans (ℤ × String) keyLE := by
  constructor
  intro a b c hab hbc
  rcases hab with h1 | ⟨h1, h1'⟩ <;> rcases hbc with h2 | ⟨h2, h2'⟩
  · exact Or.inl (h1.trans h2)
  · exact Or.inl (h2 ▸ h1)
  · exact Or.inl (h1 ▸ h2)
  · exact Or.inr ⟨h1.trans h2, h1'.trans h2'⟩

instance : IsTotal (ℤ × String) keyLE := by
  constructor
  intro a b
  rcases lt_trichotomy a.1 b.1 with h | h | h
  · exact Or.inl (Or.inl h)
  · rcases le_total a.2 b.2 with h' | h'
    · exact Or.inl (Or.inr ⟨h, h'⟩)
    · exact Or.inr (Or.inr ⟨h.symm, h'⟩)
  · exact Or.inr (Or.inl h)

/-- Embeds `load_weekly_data` (the SQL query of lines 55-77): clean, bucket into
Monday weeks, aggregate per `(week_start, agent)` group, and order by
`(week_start, agent)`. -/
def load (vs : List RawViewing) (ps : List Prospect) :
    Except LoadError (List Row) :=
  match cleanedViewings vs with
  | .error e => .error e
  | .ok cleaned =>
    .ok ((((cleaned.map viewKey).dedup).insertionSort keyLE).map
      (mkRow cleaned ps))

/-! ### Week selection (lines 87-120 of `src/app.py`) -/

/-- Line 87, `valid_weeks = pd.to_datetime(sorted(df["week_start"].unique()))`:
the distinct `week_start` values of the table, ascending. -/
def weeksOf (rows : List Row) : List ℤ :=
  ((rows.map Row.week_start).dedup).insertionSort (· ≤ ·)

/-- Pandas positional indexing with a Python `int`: indices in `[0, n)`
count from the front, indices in `[-n, 0)` wrap from the back, and anything
else raises `IndexError` (`none`). -/
def pandasGet (xs : List α) (i : ℤ) : Option α :=
  if 0 ≤ i ∧ i < (xs.length : ℤ) then xs[i.toNat]?
  else if -(xs.length : ℤ) ≤ i ∧ i < 0 then xs[(i + xs.length).toNat]?
  else none

/-- numpy `argmin`: the index of the first occurrence of the minimum. -/
def argminIdx : List ℤ → ℕ
  | [] => 0
  | [_] => 0
  | x :: y :: xs =>
    if x ≤ (y :: xs).getD (argminIdx (y :: xs)) 0 then 0
    else argminIdx (y :: xs) + 1

/-- Line 99, `snap_week = manual_date - pd.to_timedelta(manual_date.weekday(),
unit="d")`: the Monday of the picked date's own week. -/
def snapMonday (d : ℤ) : ℤ := d - weekdayMon d

/-- Line 102, `valid_weeks[(abs(valid_weeks - snap_week)).argmin()]`; numpy
`argmin` raises `ValueError` on an empty sequence (`none`). -/
def nearest_week (weeks : List ℤ) (snap : ℤ) : Option ℤ :=
  match weeks with
  | [] => none
  | _ :: _ => some (weeks.getD (argminIdx (weeks.map fun w => |w - snap|)) 0)

/-- Lines 98-102: the date-jump selection for a picked date `d`. -/
def selectNearest (weeks : List ℤ) (d : ℤ) : Option ℤ :=
  nearest_week weeks (snapMonday d)

/-- Outcome of the page flow: an unhandled exception, the explicit
no-data-for-this-week state (lines 125-127), or a rendered week. -/
inductive FlowOutcome where
  | crash
  | emptyState
  | view (w : ℤ) (weekRows : List Row)
deriving Repr, DecidableEq

/-- Lines 87-127 without a date jump: read `valid_weeks[len(valid_weeks)-1]`
(an out-of-range position raises an unhandled `IndexError`, `.crash`),
filter the table to that week, and show the warning/empty state when the
filtered table is empty. -/
def shellFlow (rows : List Row) : FlowOutcome :=
  let weeks := weeksOf rows
  match pandasGet weeks ((weeks.length : ℤ) - 1) with
  | none => .crash
  | some w =>
    let wdf := rows.filter fun r => r.week_start = w
    if wdf.isEmpty then .emptyState else .view w wdf

/-- Lines 98-114 after a date jump to `d`: resolve the nearest week, store
its index (`valid_weeks.tolist().index(nearest_week)`, the first position
of the value), and filter the table to the selected week. -/
def jumpFlow (rows : List Row) (d : ℤ) : Option (ℕ × ℤ × List Row) :=
  match selectNearest (weeksOf rows) d with
  | none => none
  | some w =>
    some ((weeksOf rows).indexOf w, w, rows.filter fun r => r.week_start = w)

/-- Lines 116-119: `start_of_week` is the first filtered row's `week_start`
when the filtered table is nonempty, else the selected week itself. -/
def start_of_week (weekRows : List Row) (selected : ℤ) : ℤ :=
  match weekRows with
  | [] => selected
  | r :: _ => r.week_start

/-- Line 120: `end_of_week = start_of_week + timedelta(days=6)`. -/
def end_of_week (weekRows : List Row) (selected : ℤ) : ℤ :=
  start_of_week weekRows selected + 6

/-- Modelled from the spec (`WeekResolver.windowFor`, which `src/` only
realises through lines 116-120): `windowFor(week_start) → (start, end)` with
`end = start + 6 days`. -/
def windowFor (w : ℤ) : ℤ × ℤ := (w, w + 6)

/-- Written from the spec's words, for comparison with `rateOf`: the ratio
`num/den` times 100, rounded to 1 decimal place (half away from zero; all
values here are nonnegative), as a rational number of percent. -/
def specRate (num den : ℕ) : ℚ :=
  (⌊100 * (num : ℚ) / den * 10 + 1 / 2⌋ : ℚ) / 10

/-- Sorting the output rows by `(week_start, agent)` is the same as sorting
their group keys. -/
def rowLE (r s : Row) : Prop :=
  r.week_start < s.week_start ∨ (r.week_start = s.week_start ∧ r.agent ≤ s.agent)

/-- A week with two viewed persons, both current tenants, only one with an
`Applied` marker: `tenants = 2 > applications = 1`, so `app_to_tenant_rate`
computes to 200.0% (2000 tenths). -/
def badRow : Row :=
  ⟨"A", 19723, 19729, 2, 1, 2, some 500, some 2000, some 1000⟩

/-- One viewing whose person applied and became a tenant: all three rates
are 100.0% (1000 tenths). -/
def dupRow : Row :=
  ⟨"A", 19723, 19729, 1, 1, 1, some 1000, some 1000, some 1000⟩

/-- A prospect record used to exercise the duplicate-prospect case. -/
def dupProspect : Prospect := ⟨some 1, some "y", some "Current"⟩

/-- A sample output row (one viewing, no applications, no tenancies, in the
week of Monday 2024-01-01 = day 19723), used in concrete instantiations. -/
def sampleRow : Row :=
  ⟨"A", 19723, 19729, 1, 0, 0, some 0, none, some 0⟩

/-! ### Helper lemmas -/

theorem argminIdx_lt_length : ∀ (l : List ℤ), l ≠ [] → argminIdx l < l.length
  | [], h => absurd rfl h
  | [_], _ => by simp [argminIdx]
  | x :: y :: xs, _ => by
    by_cases hx : x ≤ (y :: xs).getD (argminIdx (y :: xs)) 0
    · simp only [argminIdx, if_pos hx, List.length_cons]
      omega
    · have ih := argminIdx_lt_length (y :: xs) (by simp)
      simp only [List.length_cons] at ih
      simp only [argminIdx, if_neg hx, List.length_cons]
      omega

theorem argminIdx_le :
    ∀ (l : List ℤ) (j : ℕ), j < l.length →
      l.getD (argminIdx l) 0 ≤ l.getD j 0
  | [_], 0, _ => le_refl _
  | [_], j + 1, h => by simp at h
  | x :: y :: xs, j, h => by
    by_cases hx : x ≤ (y :: xs).getD (argminIdx (y :: xs)) 0
    · simp only [argminIdx, if_pos hx, List.getD_cons_zero]
      match j with
      | 0 => exact le_refl x
      | j + 1 =>
        rw [List.getD_cons_succ]
        exact hx.trans (argminIdx_le (y :: xs) j (by simpa using h))
    · simp only [argminIdx, if_neg hx, List.getD_cons_succ]
      match j with
      | 0 =>
        rw [List.getD_cons_zero]
        exact le_of_lt (not_le.mp hx)
      | j + 1 =>
        rw [List.getD_cons_succ]
        exact argminIdx_le (y :: xs) j (by simpa using h)

theorem argminIdx_first :
    ∀ (l : List ℤ) (j : ℕ), j < l.length →
      l.getD j 0 = l.getD (argminIdx l) 0 → argminIdx l ≤ j
  | [], j, h, _ => by simp at h
  | [_], _, _, _ => by simp [argminIdx]
  | x :: y :: xs, j, hj, he => by
    by_cases hx : x ≤ (y :: xs).getD (argminIdx (y :: xs)) 0
    · simp only [argminIdx, if_pos hx]
      exact Nat.zero_le j
    · simp only [argminIdx, if_neg hx, List.getD_cons_succ] at he ⊢
      match j with
      | 0 =>
        rw [List.getD_cons_zero] at he
        exact absurd (le_of_eq he) hx
      | j + 1 =>
        rw [List.getD_cons_succ] at he
        exact Nat.succ_le_succ
          (argminIdx_first (y :: xs) j (by simpa using hj) he)

/-- Applied to a nonempty list, `nearest_week` returns a member of the list at the
minimal absolute distance from `snap`, and (when the list is ascending)
the earliest member among those at minimal distance. -/
theorem nearest_week_spec (weeks : List ℤ) (snap : ℤ) (hne : weeks ≠ []) :
    ∃ w, nearest_week weeks snap = some w ∧ w ∈ weeks ∧
      (∀ v ∈ weeks, |w - snap| ≤ |v - snap|) ∧
      (weeks.Sorted (· ≤ ·) →
        ∀ v ∈ weeks, |v - snap| = |w - snap| → w ≤ v) := by
  match weeks, hne with
  | a :: as, _ =>
    have hdl : ((a :: as).map fun w => |w - snap|).length = (a :: as).length :=
      List.length_map _ _
    have hdne : ((a :: as).map fun w => |w - snap|) ≠ [] := by simp
    have hi : argminIdx ((a :: as).map fun w => |w - snap|) < (a :: as).length :=
      hdl ▸ argminIdx_lt_length _ hdne
    have hid : argminIdx ((a :: as).map fun w => |w - snap|) <
        ((a :: as).map fun w => |w - snap|).length := by rw [hdl]; exact hi
    have hw : nearest_week (a :: as) snap =
        some ((a :: as).getD (argminIdx ((a :: as).map fun w => |w - snap|)) 0) :=
      rfl
    have hgd : (a :: as).getD (argminIdx ((a :: as).map fun w => |w - snap|)) 0 =
        (a :: as).get ⟨argminIdx ((a :: as).map fun w => |w - snap|), hi⟩ := by
      rw [List.getD_eq_getElem _ _ hi]; rfl
    have hdist : ∀ (j : ℕ) (hj : j < (a :: as).length),
        ((a :: as).map fun w => |w - snap|).getD j 0 =
          |(a :: as).get ⟨j, hj⟩ - snap| := by
      intro j hj
      rw [List.getD_eq_getElem _ _ (by rw [hdl]; exact hj)]
      exact List.getElem_map _
    refine ⟨(a :: as).get ⟨argminIdx ((a :: as).map fun w => |w - snap|), hi⟩,
      hgd ▸ hw, (a :: as).get_mem _ hi, ?_, ?_⟩
    · intro v hv
      obtain ⟨j, rfl⟩ := List.mem_iff_get.mp hv
      have := argminIdx_le ((a :: as).map fun w => |w - snap|) j
        (by rw [hdl]; exact j.isLt)
      rwa [hdist _ hi, hdist _ j.isLt] at this
    · intro hs v hv heq
      obtain ⟨j, rfl⟩ := List.mem_iff_get.mp hv
      have hfirst := argminIdx_first ((a :: as).map fun w => |w - snap|) j
        (by rw [hdl]; exact j.isLt)
        (by rw [hdist _ hi, hdist _ j.isLt]; exact heq)
      rcases Nat.lt_or_ge (argminIdx ((a :: as).map fun w => |w - snap|)) j.1 with
        hlt | hge
      · exact List.pairwise_iff_get.mp hs ⟨_, hi⟩ j hlt
      · exact le_of_eq (congrArg (a :: as).get
          (Fin.ext (Nat.le_antisymm hfirst hge)))

/-! ### Helper lemmas: the aggregation query -/

theorem load_eq_ok {vs : List RawViewing} {ps : List Prospect} {rows : List Row}
    (h : load vs ps = .ok rows) :
    ∃ cl, cleanedViewings vs = .ok cl ∧
      rows = (((cl.map viewKey).dedup).insertionSort keyLE).map (mkRow cl ps) := by
  unfold load at h
  cases hc : cleanedViewings vs with
  | error e => rw [hc] at h; cases h
  | ok cl =>
    rw [hc] at h
    injection h with h
    exact ⟨cl, rfl, h.symm⟩

theorem mem_load {vs : List RawViewing} {ps : List Prospect} {rows : List Row}
    (h : load vs ps = .ok rows) {r : Row} (hr : r ∈ rows) :
    ∃ cl k, cleanedViewings vs = .ok cl ∧
      k ∈ (cl.map viewKey).dedup ∧ r = mkRow cl ps k := by
  obtain ⟨cl, hc, rfl⟩ := load_eq_ok h
  obtain ⟨k, hk, rfl⟩ := List.mem_map.mp hr
  exact ⟨cl, k, hc, (List.perm_insertionSort keyLE _).subset hk, rfl⟩

theorem groupViews_ne_nil {cl : List CleanedViewing} {k : ℤ × String}
    (hk : k ∈ (cl.map viewKey).dedup) : groupViews cl k ≠ [] := by
  rw [List.mem_dedup] at hk
  obtain ⟨v, hv, rfl⟩ := List.mem_map.mp hk
  intro h
  have hm : v ∈ groupViews cl (viewKey v) :=
    List.mem_filter.mpr ⟨hv, by simp⟩
  rw [h] at hm
  exact absurd hm (List.not_mem_nil v)

theorem joinBlock_ne_nil (v : CleanedViewing) (ps : List Prospect) :
    joinBlock v ps ≠ [] := by
  unfold joinBlock
  cases ps.filter fun p => p.personId = some v.personId with
  | nil => simp
  | cons m ms => simp

theorem joinRows_ne_nil {views : List CleanedViewing} (ps : List Prospect)
    (h : views ≠ []) : joinRows views ps ≠ [] := by
  match views, h with
  | v :: vs, _ =>
    rw [joinRows, List.flatMap_cons]
    intro hemp
    rcases List.append_eq_nil.mp hemp with ⟨h1, _⟩
    exact joinBlock_ne_nil v ps h1

theorem countDistinct_eq_card (l : List ℕ) : countDistinct l = l.toFinset.card :=
  (List.card_toFinset l).symm

theorem countDistinct_le_of_subset {l1 l2 : List ℕ} (h : l1 ⊆ l2) :
    countDistinct l1 ≤ countDistinct l2 := by
  rw [countDistinct_eq_card, countDistinct_eq_card]
  exact Finset.card_le_card fun x hx =>
    List.mem_toFinset.mpr (h (List.mem_toFinset.mp hx))

theorem countDistinct_pos {l : List ℕ} (h : l ≠ []) : 0 < countDistinct l := by
  rw [countDistinct]
  have hd : l.dedup ≠ [] := fun hd => h ((List.dedup_eq_nil l).mp hd)
  exact List.length_pos.mpr hd

theorem toFinset_map_const {α β : Type} [DecidableEq β] (b : β) :
    ∀ l : List α, l ≠ [] → (l.map fun _ => b).toFinset = {b}
  | [], h => absurd rfl h
  | [_], _ => by simp
  | _ :: a :: as, _ => by
    rw [List.map_cons, List.toFinset_cons, toFinset_map_const b (a :: as) (by simp)]
    simp

theorem joinBlock_pid_toFinset (v : CleanedViewing) (ps : List Prospect) :
    ((joinBlock v ps).map fun r => r.1.personId).toFinset = {v.personId} := by
  unfold joinBlock
  cases hms : ps.filter fun p => p.personId = some v.personId with
  | nil => simp
  | cons m ms =>
    rw [List.map_map]
    exact toFinset_map_const v.personId (m :: ms) (by simp)

theorem joinRows_pid_toFinset (views : List CleanedViewing) (ps : List Prospect) :
    ((joinRows views ps).map fun r => r.1.personId).toFinset =
      (views.map CleanedViewing.personId).toFinset := by
  induction views with
  | nil => rfl
  | cons v vs ih =>
    rw [joinRows, List.flatMap_cons, List.map_append, List.toFinset_append]
    rw [show (vs.flatMap fun v => joinBlock v ps) = joinRows vs ps from rfl, ih]
    rw [joinBlock_pid_toFinset, List.map_cons, List.toFinset_cons,
      Finset.insert_eq]

/-- Filtering the join rows by a prospect-side test and collecting distinct
person ids is the same as collecting the viewed persons that have at least
one matching prospect passing the test: the join multiplicity never shows
through. -/
theorem joinBlock_filter_pid_toFinset (q : Prospect → Bool)
    (v : CleanedViewing) (ps : List Prospect) :
    (((joinBlock v ps).filter (matchTest q)).map fun r => r.1.personId).toFinset =
      (if (ps.filter fun p => p.personId = some v.personId).any q then
        ({v.personId} : Finset ℕ) else ∅) := by
  unfold joinBlock
  cases hms : ps.filter fun p => p.personId = some v.personId with
  | nil => simp [matchTest]
  | cons m ms =>
    rw [List.filter_map]
    have hcomp : (matchTest q ∘ fun p => (v, some p)) = q := rfl
    rw [hcomp, List.map_map]
    by_cases hq : (m :: ms).any q
    · rw [if_pos hq]
      have hne : (m :: ms).filter q ≠ [] := by
        obtain ⟨a, ha, haq⟩ := List.any_eq_true.mp hq
        intro hnil
        exact absurd haq
          (by simpa using (List.filter_eq_nil_iff.mp hnil) a ha)
      exact toFinset_map_const v.personId _ hne
    · rw [if_neg hq]
      have hnil : (m :: ms).filter q = [] := by
        rw [List.filter_eq_nil_iff]
        intro a ha haq
        exact hq (List.any_eq_true.mpr ⟨a, ha, haq⟩)
      rw [hnil]
      rfl

theorem joinRows_filter_pid_toFinset (q : Prospect → Bool)
    (views : List CleanedViewing) (ps : List Prospect) :
    (((joinRows views ps).filter (matchTest q)).map fun r => r.1.personId).toFinset =
      ((views.filter fun v =>
          (ps.filter fun p => p.personId = some v.personId).any q).map
        CleanedViewing.personId).toFinset := by
  induction views with
  | nil => rfl
  | cons v vs ih =>
    rw [joinRows, List.flatMap_cons, List.filter_append, List.map_append,
      List.toFinset_append]
    rw [show (vs.flatMap fun v => joinBlock v ps) = joinRows vs ps from rfl, ih]
    rw [joinBlock_filter_pid_toFinset, List.filter_cons]
    by_cases hc : (ps.filter fun p => p.personId = some v.personId).any q
    · rw [if_pos hc, if_pos hc, List.map_cons, List.toFinset_cons,
        Finset.insert_eq]
    · rw [if_neg hc, if_neg hc, Finset.empty_union]

/-- Adding a duplicate of a prospect record already in the table does not
change which viewed persons pass a prospect-side test. -/
theorem filter_any_dup (q : Prospect → Bool) {p : Prospect} {ps : List Prospect}
    (hp : p ∈ ps) (v : CleanedViewing) :
    ((p :: ps).filter fun pr => pr.personId = some v.personId).any q =
      ((ps.filter fun pr => pr.personId = some v.personId).any q) := by
  rw [List.filter_cons]
  by_cases hc : p.personId = some v.personId
  · rw [if_pos (by simpa using hc), List.any_cons]
    by_cases hq : q p
    · have : (ps.filter fun pr => pr.personId = some v.personId).any q = true :=
        List.any_eq_true.mpr ⟨p, List.mem_filter.mpr ⟨hp, by simpa using hc⟩, hq⟩
      rw [this, hq]
      rfl
    · rw [Bool.of_not_eq_true hq]
      rfl
  · rw [if_neg (by simpa using hc)]

/-- Row construction is unchanged when a prospect record is duplicated:
distinct-count semantics on `personId` absorb join multiplicity. -/
theorem mkRow_dup {p : Prospect} {ps : List Prospect} (hp : p ∈ ps)
    (cl : List CleanedViewing) (k : ℤ × String) :
    mkRow cl (p :: ps) k = mkRow cl ps k := by
  have htv :
      countDistinct ((joinRows (groupViews cl k) (p :: ps)).map fun r => r.1.personId) =
      countDistinct ((joinRows (groupViews cl k) ps).map fun r => r.1.personId) := by
    rw [countDistinct_eq_card, countDistinct_eq_card,
      joinRows_pid_toFinset, joinRows_pid_toFinset]
  have hflt : ∀ q : Prospect → Bool,
      countDistinct (((joinRows (groupViews cl k) (p :: ps)).filter
        (matchTest q)).map fun r => r.1.personId) =
      countDistinct (((joinRows (groupViews cl k) ps).filter
        (matchTest q)).map fun r => r.1.personId) := by
    intro q
    rw [countDistinct_eq_card, countDistinct_eq_card,
      joinRows_filter_pid_toFinset, joinRows_filter_pid_toFinset]
    rw [List.filter_congr fun v _ => filter_any_dup q hp v]
  unfold mkRow appliedRow tenantRow
  dsimp only
  rw [htv, hflt, hflt]

theorem mkRow_tv_pos {cl : List CleanedViewing} {k : ℤ × String}
    (hk : k ∈ (cl.map viewKey).dedup) (ps : List Prospect) :
    0 < (mkRow cl ps k).total_viewings := by
  have hg : groupViews cl k ≠ [] := groupViews_ne_nil hk
  have hj : joinRows (groupViews cl k) ps ≠ [] := joinRows_ne_nil ps hg
  have hm : (joinRows (groupViews cl k) ps).map (fun r => r.1.personId) ≠ [] := by
    simpa using hj
  exact countDistinct_pos hm

theorem mkRow_counts_le (cl : List CleanedViewing) (ps : List Prospect)
    (k : ℤ × String) :
    (mkRow cl ps k).tenants ≤ (mkRow cl ps k).total_viewings ∧
    (mkRow cl ps k).applications ≤ (mkRow cl ps k).total_viewings := by
  constructor <;>
    exact countDistinct_le_of_subset
      (List.map_subset _ fun x hx => (List.mem_filter.mp hx).1)

/-- The integer-tenths rounding agrees with the spec's "ratio times 100
rounded to one decimal place" as a rational number. -/
theorem roundTenths_cast {num den : ℕ} (hden : den ≠ 0) :
    ((roundTenths num den : ℕ) : ℚ) / 10 = specRate num den := by
  have hd : ((den : ℚ)) ≠ 0 := Nat.cast_ne_zero.mpr hden
  have h1 : ((roundTenths num den : ℕ) : ℚ) =
      ((⌊(((2000 * num + den : ℕ) : ℚ)) / (((2 * den : ℕ) : ℚ))⌋₊ : ℕ) : ℚ) := by
    rw [Nat.floor_div_eq_div]
    rfl
  have h2 : (((2000 * num + den : ℕ) : ℚ)) / (((2 * den : ℕ) : ℚ)) =
      100 * (num : ℚ) / (den : ℚ) * 10 + 1 / 2 := by
    push_cast
    field_simp
    ring
  have h3 : (0 : ℚ) ≤ 100 * (num : ℚ) / (den : ℚ) * 10 + 1 / 2 := by positivity
  rw [specRate, h1, h2]
  congr 1
  rw [← Int.natCast_floor_eq_floor h3]
  push_cast
  rfl

theorem roundTenths_le_1000 {a t : ℕ} (h : a ≤ t) (ht : t ≠ 0) :
    roundTenths a t ≤ 1000 := by
  have h1 : roundTenths a t ≤ (2000 * t + t) / (2 * t) :=
    Nat.div_le_div_right (by omega)
  have h2 : (2000 * t + t) / (2 * t) = 1000 := by
    rw [show 2000 * t + t = t * 2001 by ring, show 2 * t = t * 2 by ring,
      Nat.mul_div_mul_left _ _ (Nat.pos_of_ne_zero ht)]
  omega

theorem rateOf_pos {n d : ℕ} (h : d ≠ 0) : rateOf n d = some (roundTenths n d) := by
  unfold rateOf
  rw [if_neg h]

theorem rateOf_zero (n : ℕ) : rateOf n 0 = none := rfl

theorem parseAll_error_iff : ∀ l : List (ℕ × String × String),
    (∃ e, parseAll l = .error e) ↔ ∃ x ∈ l, toDate x.2.2 = none
  | [] => by simp [parseAll]
  | x :: xs => by
    have ih := parseAll_error_iff xs
    cases hx : toDate x.2.2 with
    | none =>
      simp only [parseAll, hx]
      constructor
      · intro _
        exact ⟨x, List.mem_cons_self x xs, hx⟩
      · intro _
        exact ⟨.dateFormat x.2.2, rfl⟩
    | some d =>
      cases hp : parseAll xs with
      | ok rest =>
        simp only [parseAll, hx, hp]
        constructor
        · rintro ⟨e, he⟩
          cases he
        · rintro ⟨y, hy, hyd⟩
          rcases List.mem_cons.mp hy with rfl | hy'
          · rw [hx] at hyd
            cases hyd
          · obtain ⟨e, he⟩ := ih.mpr ⟨y, hy', hyd⟩
            rw [hp] at he
            cases he
      | error e =>
        simp only [parseAll, hx, hp]
        constructor
        · intro _
          obtain ⟨y, hy, hyd⟩ := ih.mp ⟨e, hp⟩
          exact ⟨y, List.mem_cons_of_mem x hy, hyd⟩
        · intro _
          exact ⟨e, rfl⟩

theorem cleanedViewings_error_iff (vs : List RawViewing) :
    (∃ e, cleanedViewings vs = .error e) ↔
      ∃ v ∈ vs, v.personId ≠ none ∧ toDate v.dateStr = none := by
  unfold cleanedViewings
  rw [parseAll_error_iff]
  constructor
  · rintro ⟨x, hx, hxd⟩
    obtain ⟨v, hv, hg⟩ := List.mem_filterMap.mp hx
    cases hpid : v.personId with
    | none =>
      rw [hpid] at hg
      cases hg
    | some pid =>
      rw [hpid] at hg
      injection hg with hg
      refine ⟨v, hv, by simp [hpid], ?_⟩
      rw [← hg] at hxd
      exact hxd
  · rintro ⟨v, hv, hpid, hvd⟩
    cases hp : v.personId with
    | none => exact absurd hp hpid
    | some pid =>
      exact ⟨(pid, v.agent, v.dateStr),
        List.mem_filterMap.mpr ⟨v, hv, by rw [hp]; rfl⟩, hvd⟩

theorem load_error_iff (vs : List RawViewing) (ps : List Prospect) :
    (∃ s, load vs ps = .error (.dateFormat s)) ↔
      ∃ e, cleanedViewings vs = .error e := by
  unfold load
  cases hc : cleanedViewings vs with
  | error e =>
    cases e with
    | dateFormat s => simp
  | ok cl => simp

/-! ### Claim theorems: week resolution -/

/-- C5: for every non-empty ascending-sorted `weeks` list and every target
date `d`, `selectNearest` computes `snap` as `d` minus `d`'s weekday offset
from Monday (so `snap` is the Monday of `d`'s own week: a Monday, at most 6
days before `d`), returns a member of `weeks` minimizing the absolute
difference from `snap`, and on ties returns the earliest such member. -/
theorem C5_selectNearest_snaps_to_nearest (weeks : List ℤ) (d : ℤ)
    (hne : weeks ≠ []) (hs : weeks.Sorted (· ≤ ·)) :
    ∃ w, selectNearest weeks d = some w ∧ w ∈ weeks ∧
      snapMonday d = d - weekdayMon d ∧
      weekdayMon (snapMonday d) = 0 ∧ snapMonday d ≤ d ∧ d - snapMonday d < 7 ∧
      (∀ v ∈ weeks, |w - snapMonday d| ≤ |v - snapMonday d|) ∧
      (∀ v ∈ weeks, |v - snapMonday d| = |w - snapMonday d| → w ≤ v) := by
  obtain ⟨w, h1, h2, h3, h4⟩ := nearest_week_spec weeks (snapMonday d) hne
  refine ⟨w, h1, h2, rfl, ?_, ?_, ?_, h3, h4 hs⟩
  · simp only [snapMonday, weekdayMon]; omega
  · simp only [snapMonday, weekdayMon]; omega
  · simp only [snapMonday, weekdayMon]; omega

theorem C5_witness :
    (([19723, 19730, 19737] : List ℤ) ≠ [] ∧
      ([19723, 19730, 19737] : List ℤ).Sorted (· ≤ ·)) ∧
    (∃ w, selectNearest [19723, 19730, 19737] 19732 = some w ∧
      w ∈ ([19723, 19730, 19737] : List ℤ) ∧
      snapMonday 19732 = 19732 - weekdayMon 19732 ∧
      weekdayMon (snapMonday 19732) = 0 ∧ snapMonday 19732 ≤ 19732 ∧
      19732 - snapMonday 19732 < 7 ∧
      (∀ v ∈ ([19723, 19730, 19737] : List ℤ),
        |w - snapMonday 19732| ≤ |v - snapMonday 19732|) ∧
      (∀ v ∈ ([19723, 19730, 19737] : List ℤ),
        |v - snapMonday 19732| = |w - snapMonday 19732| → w ≤ v)) ∧
    selectNearest [19723, 19730, 19737] 19732 = some 19730 :=
  ⟨⟨by decide, by decide⟩,
    C5_selectNearest_snaps_to_nearest [19723, 19730, 19737] 19732
      (by decide) (by decide), by decide⟩

/-- C3 (amended): when the set of distinct `week_start` values is empty the
page flow crashes with an unhandled indexing error (there is no
`NoWeeksAvailable` / empty-state path for this case), and `selectNearest`
fails; for every non-empty `weeks` set `selectNearest` never fails and
returns a member of `weeks`. -/
theorem C3_empty_weeks_crash (rows : List Row) (d : ℤ) :
    (weeksOf rows = [] →
      shellFlow rows = .crash ∧ selectNearest (weeksOf rows) d = none) ∧
    (weeksOf rows ≠ [] →
      ∃ w, selectNearest (weeksOf rows) d = some w ∧ w ∈ weeksOf rows) := by
  constructor
  · intro h
    constructor
    · unfold shellFlow
      rw [h]
      rfl
    · rw [h]
      rfl
  · intro h
    obtain ⟨w, h1, h2, _, _⟩ := nearest_week_spec _ (snapMonday d) h
    exact ⟨w, h1, h2⟩

theorem C3_witness :
    weeksOf ([] : List Row) = [] ∧
    (shellFlow ([] : List Row) = .crash ∧
      selectNearest (weeksOf ([] : List Row)) 0 = none) :=
  ⟨by decide, (C3_empty_weeks_crash [] 0).1 (by decide)⟩

theorem C3_counterexample :
    shellFlow ([] : List Row) = .crash ∧
    shellFlow ([] : List Row) ≠ .emptyState ∧
    selectNearest (weeksOf ([] : List Row)) 0 = none := by
  exact ⟨rfl, by decide, rfl⟩

/-- C7 (amended): reading `valid_weeks[i]` with a Python `int` raises
`IndexError` exactly when `i < -len(weeks)` or `i ≥ len(weeks)`; an `i` in
`[0, len)` reads position `i`, but a negative `i` in `[-len, 0)` does not
fail — it wraps around and reads position `i + len` (Python-style). -/
theorem C7_selectByIndex_semantics (weeks : List ℤ) (i : ℤ) :
    (pandasGet weeks i = none ↔
      i < -(weeks.length : ℤ) ∨ (weeks.length : ℤ) ≤ i) ∧
    (0 ≤ i → i < (weeks.length : ℤ) →
      ∃ h : i.toNat < weeks.length,
        pandasGet weeks i = some (weeks.get ⟨i.toNat, h⟩)) ∧
    (-(weeks.length : ℤ) ≤ i → i < 0 →
      ∃ h : (i + weeks.length).toNat < weeks.length,
        pandasGet weeks i = some (weeks.get ⟨(i + weeks.length).toNat, h⟩)) := by
  refine ⟨?_, ?_, ?_⟩
  · unfold pandasGet
    split_ifs with h1 h2
    · rw [List.getElem?_eq_getElem (by omega)]
      simp only [reduceCtorEq, false_iff]
      omega
    · rw [List.getElem?_eq_getElem (by omega)]
      simp only [reduceCtorEq, false_iff]
      omega
    · simp only [true_iff]
      omega
  · intro h1 h2
    have hb : i.toNat < weeks.length := by omega
    refine ⟨hb, ?_⟩
    unfold pandasGet
    rw [if_pos ⟨h1, h2⟩, List.getElem?_eq_getElem hb]
    rfl
  · intro h1 h2
    have hb : (i + weeks.length).toNat < weeks.length := by omega
    refine ⟨hb, ?_⟩
    unfold pandasGet
    rw [if_neg (by omega), if_pos ⟨h1, h2⟩, List.getElem?_eq_getElem hb]
    rfl

theorem C7_witness :
    ((0 : ℤ) ≤ 1 ∧ (1 : ℤ) < ([19723, 19730, 19737] : List ℤ).length) ∧
    pandasGet ([19723, 19730, 19737] : List ℤ) 1 = some 19730 := by
  refine ⟨⟨by decide, by decide⟩, ?_⟩
  obtain ⟨h, he⟩ :=
    (C7_selectByIndex_semantics [19723, 19730, 19737] 1).2.1
      (by decide) (by decide)
  rw [he]
  rfl

theorem C7_counterexample :
    pandasGet ([19723, 19730, 19737] : List ℤ) (-1) = some 19737 ∧
    pandasGet ([19723, 19730, 19737] : List ℤ) (-1) ≠ none := by
  exact ⟨rfl, by decide⟩

/-- C10: after every date-jump selection, the stored session index and the
selected week agree — `weeks[i]` is exactly the week `selectNearest`
returned, and the filtered table handed to the shell is the full table
restricted to that week. -/
theorem C10_jump_index_consistent (rows : List Row) (d : ℤ)
    (hne : weeksOf rows ≠ []) :
    ∃ i w, jumpFlow rows d = some (i, w, rows.filter fun r => r.week_start = w) ∧
      (weeksOf rows)[i]? = some w ∧ w ∈ weeksOf rows := by
  obtain ⟨w, h1, h2, _, _⟩ := nearest_week_spec (weeksOf rows) (snapMonday d) hne
  refine ⟨(weeksOf rows).indexOf w, w, ?_, ?_, h2⟩
  · unfold jumpFlow selectNearest
    rw [h1]
  · exact List.getElem?_indexOf h2

theorem C10_witness :
    weeksOf [sampleRow] ≠ [] ∧
    (∃ i w, jumpFlow [sampleRow] 19725 =
        some (i, w, [sampleRow].filter fun r => r.week_start = w) ∧
      (weeksOf [sampleRow])[i]? = some w ∧ w ∈ weeksOf [sampleRow]) :=
  ⟨by decide, C10_jump_index_consistent [sampleRow] 19725 (by decide)⟩

/-! ### Claim theorems: the aggregation query -/

/-- C1 (amended): every output row has positive `total_viewings`, so
`view_to_app_rate` and `total_conversion_rate` always equal their defined
ratio times 100 rounded to 1 decimal place (stored in tenths of a percent,
and equal to the spec's rounded rational rate); `app_to_tenant_rate`
equals its rounded ratio when `applications > 0`, but when
`applications = 0` it is SQL NULL (`none`) — not 0 — because the query
divides by `NULLIF(applications, 0)`. -/
theorem C1_rate_semantics (vs : List RawViewing) (ps : List Prospect)
    (rows : List Row) (h : load vs ps = .ok rows) (r : Row) (hr : r ∈ rows) :
    0 < r.total_viewings ∧
    r.view_to_app_rate = some (roundTenths r.applications r.total_viewings) ∧
    ((roundTenths r.applications r.total_viewings : ℕ) : ℚ) / 10 =
      specRate r.applications r.total_viewings ∧
    r.total_conversion_rate = some (roundTenths r.tenants r.total_viewings) ∧
    ((roundTenths r.tenants r.total_viewings : ℕ) : ℚ) / 10 =
      specRate r.tenants r.total_viewings ∧
    (r.applications = 0 → r.app_to_tenant_rate = none) ∧
    (r.applications ≠ 0 →
      r.app_to_tenant_rate = some (roundTenths r.tenants r.applications) ∧
      ((roundTenths r.tenants r.applications : ℕ) : ℚ) / 10 =
        specRate r.tenants r.applications) := by
  obtain ⟨cl, k, hc, hk, rfl⟩ := mem_load h hr
  have htv : 0 < (mkRow cl ps k).total_viewings := mkRow_tv_pos hk ps
  have htv' : (mkRow cl ps k).total_viewings ≠ 0 := Nat.pos_iff_ne_zero.mp htv
  refine ⟨htv, rateOf_pos htv', roundTenths_cast htv',
    rateOf_pos htv', roundTenths_cast htv', ?_, ?_⟩
  · intro hap
    show rateOf (mkRow cl ps k).tenants (mkRow cl ps k).applications = none
    rw [hap]
    rfl
  · intro hap
    exact ⟨rateOf_pos hap, roundTenths_cast hap⟩

theorem C1_witness :
    load [⟨some 1, "A", "01/01/2024"⟩] [] = .ok [sampleRow] ∧
    sampleRow ∈ [sampleRow] ∧
    0 < sampleRow.total_viewings ∧
    sampleRow.view_to_app_rate =
      some (roundTenths sampleRow.applications sampleRow.total_viewings) ∧
    (sampleRow.applications = 0 → sampleRow.app_to_tenant_rate = none) :=
  ⟨rfl, by decide,
    (C1_rate_semantics [⟨some 1, "A", "01/01/2024"⟩] [] [sampleRow] rfl
      sampleRow (by decide)).1,
    (C1_rate_semantics [⟨some 1, "A", "01/01/2024"⟩] [] [sampleRow] rfl
      sampleRow (by decide)).2.1,
    (C1_rate_semantics [⟨some 1, "A", "01/01/2024"⟩] [] [sampleRow] rfl
      sampleRow (by decide)).2.2.2.2.2.1⟩

theorem C1_counterexample :
    load [⟨some 1, "A", "01/01/2024"⟩] [] = .ok [sampleRow] ∧
    sampleRow.applications = 0 ∧
    sampleRow.app_to_tenant_rate = none ∧
    sampleRow.app_to_tenant_rate ≠ some 0 :=
  ⟨rfl, rfl, rfl, by decide⟩

/-- C2 (amended): one unparseable date in a viewing row with non-null
`personId` makes the whole load fail with a date-format error — the row is
not dropped and nothing else is returned; the load succeeds exactly when
every such row's date parses.  (Rows with null `personId` are dropped by
the `WHERE` clause whatever their date field holds.) -/
theorem C2_bad_date_aborts (vs : List RawViewing) (ps : List Prospect) :
    ((∃ v ∈ vs, v.personId ≠ none ∧ toDate v.dateStr = none) ↔
      ∃ s, load vs ps = .error (.dateFormat s)) ∧
    ((∀ v ∈ vs, v.personId ≠ none → (toDate v.dateStr).isSome) →
      ∃ rows, load vs ps = .ok rows) := by
  constructor
  · exact ((load_error_iff vs ps).trans (cleanedViewings_error_iff vs)).symm
  · intro hall
    cases hl : load vs ps with
    | ok rows => exact ⟨rows, rfl⟩
    | error e =>
      cases e with
      | dateFormat s =>
        obtain ⟨v, hv, hpid, hbad⟩ :=
          ((load_error_iff vs ps).trans (cleanedViewings_error_iff vs)).mp
            ⟨s, hl⟩
        have hsome := hall v hv hpid
        rw [hbad] at hsome
        exact absurd hsome (by simp)

theorem C2_witness :
    (∀ v ∈ [(⟨some 1, "A", "01/01/2024"⟩ : RawViewing)],
      v.personId ≠ none → (toDate v.dateStr).isSome) ∧
    ∃ rows, load [(⟨some 1, "A", "01/01/2024"⟩ : RawViewing)] [] = .ok rows :=
  ⟨by decide,
    (C2_bad_date_aborts [⟨some 1, "A", "01/01/2024"⟩] []).2 (by decide)⟩

theorem C2_counterexample :
    load [⟨some 1, "A", "01/01/2024"⟩, ⟨some 2, "A", "oops"⟩] [] =
      .error (.dateFormat "oops") ∧
    toDate "01/01/2024" = some 19723 ∧
    toDate "oops" = none :=
  ⟨rfl, rfl, rfl⟩

/-- C4 (amended): the two rates whose denominator is `total_viewings` —
`view_to_app_rate` and `total_conversion_rate` — always lie in [0, 100]
(at most 1000 tenths; nonnegativity is by construction), because
applications and tenants are distinct counts over subsets of the group's
viewed persons.  `app_to_tenant_rate` has no such bound: a person with
status `'Current'` but no `'Applied'` marker makes `tenants` exceed
`applications`. -/
theorem C4_viewing_rates_bounded (vs : List RawViewing) (ps : List Prospect)
    (rows : List Row) (h : load vs ps = .ok rows) (r : Row) (hr : r ∈ rows) :
    (∀ x, r.view_to_app_rate = some x → x ≤ 1000) ∧
    (∀ x, r.total_conversion_rate = some x → x ≤ 1000) := by
  obtain ⟨cl, k, hc, hk, rfl⟩ := mem_load h hr
  have htv' : (mkRow cl ps k).total_viewings ≠ 0 :=
    Nat.pos_iff_ne_zero.mp (mkRow_tv_pos hk ps)
  obtain ⟨hten, happ⟩ := mkRow_counts_le cl ps k
  constructor
  · intro x hx
    have hx' : rateOf (mkRow cl ps k).applications
        (mkRow cl ps k).total_viewings = some x := hx
    rw [rateOf_pos htv'] at hx'
    injection hx' with hx'
    exact hx' ▸ roundTenths_le_1000 happ htv'
  · intro x hx
    have hx' : rateOf (mkRow cl ps k).tenants
        (mkRow cl ps k).total_viewings = some x := hx
    rw [rateOf_pos htv'] at hx'
    injection hx' with hx'
    exact hx' ▸ roundTenths_le_1000 hten htv'

theorem C4_witness :
    load [⟨some 1, "A", "01/01/2024"⟩] [] = .ok [sampleRow] ∧
    sampleRow ∈ [sampleRow] ∧
    (∀ x, sampleRow.view_to_app_rate = some x → x ≤ 1000) ∧
    (∀ x, sampleRow.total_conversion_rate = some x → x ≤ 1000) :=
  ⟨rfl, by decide,
    (C4_viewing_rates_bounded [⟨some 1, "A", "01/01/2024"⟩] [] [sampleRow] rfl
      sampleRow (by decide)).1,
    (C4_viewing_rates_bounded [⟨some 1, "A", "01/01/2024"⟩] [] [sampleRow] rfl
      sampleRow (by decide)).2⟩

theorem C4_counterexample :
    load [⟨some 1, "A", "01/01/2024"⟩, ⟨some 2, "A", "02/01/2024"⟩]
        [⟨some 1, some "yes", some "Current"⟩, ⟨some 2, none, some "Current"⟩] =
      .ok [badRow] ∧
    badRow.tenants = 2 ∧ badRow.applications = 1 ∧
    badRow.app_to_tenant_rate = some 2000 ∧
    (∀ x, badRow.app_to_tenant_rate = some x → 1000 < x) :=
  ⟨rfl, rfl, rfl, rfl, by decide⟩

/-- C6: in every output row `tenants ≤ total_viewings` (and also
`applications ≤ total_viewings`), and the left join never inflates any of
the three counts: duplicating any prospect record already in the table
leaves the whole output unchanged, because all counts are distinct-personId
counts over the group's viewing events. -/
theorem C6_distinct_counts (vs : List RawViewing) (ps : List Prospect)
    (rows : List Row) (h : load vs ps = .ok rows) (r : Row) (hr : r ∈ rows) :
    r.tenants ≤ r.total_viewings ∧
    r.applications ≤ r.total_viewings ∧
    (∀ p ∈ ps, load vs (p :: ps) = .ok rows) := by
  obtain ⟨cl, hc, rfl⟩ := load_eq_ok h
  obtain ⟨k, hk', rfl⟩ := List.mem_map.mp hr
  refine ⟨(mkRow_counts_le cl ps k).1, (mkRow_counts_le cl ps k).2, ?_⟩
  intro p hp
  simp only [load, hc]
  congr 1
  exact List.map_congr_left fun k2 _ => mkRow_dup hp cl k2

theorem C6_witness :
    load [⟨some 1, "A", "01/01/2024"⟩] [dupProspect] = .ok [dupRow] ∧
    dupRow ∈ [dupRow] ∧
    dupProspect ∈ [dupProspect] ∧
    dupRow.tenants ≤ dupRow.total_viewings ∧
    load [⟨some 1, "A", "01/01/2024"⟩] (dupProspect :: [dupProspect]) =
      .ok [dupRow] :=
  ⟨rfl, by decide, by decide,
    (C6_distinct_counts [⟨some 1, "A", "01/01/2024"⟩] [dupProspect] [dupRow]
      rfl dupRow (by decide)).1,
    (C6_distinct_counts [⟨some 1, "A", "01/01/2024"⟩] [dupProspect] [dupRow]
      rfl dupRow (by decide)).2.2 dupProspect (by decide)⟩

/-- C8: every output row satisfies `week_end = week_start + 6`, and for
every `week_start` present in the table, the rows obtained by filtering to
it are nonempty and carry exactly the `(start, end)` pair that the shell
derives (lines 116-120), which is `windowFor`'s output. -/
theorem C8_week_window (vs : List RawViewing) (ps : List Prospect)
    (rows : List Row) (h : load vs ps = .ok rows) :
    (∀ r ∈ rows, r.week_end = r.week_start + 6) ∧
    ∀ w ∈ weeksOf rows,
      rows.filter (fun r => r.week_start = w) ≠ [] ∧
      (start_of_week (rows.filter fun r => r.week_start = w) w,
        end_of_week (rows.filter fun r => r.week_start = w) w) = windowFor w ∧
      ∀ r ∈ rows.filter fun r => r.week_start = w,
        (r.week_start, r.week_end) = windowFor w := by
  have hwe : ∀ r ∈ rows, r.week_end = r.week_start + 6 := by
    intro r hr
    obtain ⟨cl, k, hc, hk, rfl⟩ := mem_load h hr
    rfl
  refine ⟨hwe, ?_⟩
  intro w hw
  have hw' : w ∈ (rows.map Row.week_start).dedup :=
    (List.perm_insertionSort _ _).subset hw
  rw [List.mem_dedup] at hw'
  obtain ⟨r0, hr0, hr0w⟩ := List.mem_map.mp hw'
  have hr0f : r0 ∈ rows.filter fun r => r.week_start = w :=
    List.mem_filter.mpr ⟨hr0, by simp [hr0w]⟩
  have hne : rows.filter (fun r => r.week_start = w) ≠ [] := by
    intro hnil
    rw [hnil] at hr0f
    exact absurd hr0f (List.not_mem_nil r0)
  refine ⟨hne, ?_, ?_⟩
  · cases hfl : rows.filter fun r => r.week_start = w with
    | nil => exact absurd hfl hne
    | cons rf rest =>
      have hrf : rf ∈ rows.filter fun r => r.week_start = w := by
        rw [hfl]
        exact List.mem_cons_self _ _
      have h1 : rf.week_start = w := by
        simpa using (List.mem_filter.mp hrf).2
      show (rf.week_start, rf.week_start + 6) = windowFor w
      rw [windowFor, h1]
  · intro r hrf
    have h1 : r.week_start = w := by
      simpa using (List.mem_filter.mp hrf).2
    have h2 := hwe r (List.mem_filter.mp hrf).1
    rw [windowFor, h2, h1]

theorem C8_witness :
    load [⟨some 1, "A", "01/01/2024"⟩] [] = .ok [sampleRow] ∧
    (19723 : ℤ) ∈ weeksOf [sampleRow] ∧
    (∀ r ∈ [sampleRow], r.week_end = r.week_start + 6) ∧
    (([sampleRow].filter fun r => r.week_start = 19723) ≠ [] ∧
      (start_of_week ([sampleRow].filter fun r => r.week_start = 19723) 19723,
        end_of_week ([sampleRow].filter fun r => r.week_start = 19723) 19723) =
        windowFor 19723 ∧
      ∀ r ∈ [sampleRow].filter fun r => r.week_start = 19723,
        (r.week_start, r.week_end) = windowFor 19723) :=
  ⟨rfl, by decide,
    (C8_week_window [⟨some 1, "A", "01/01/2024"⟩] [] [sampleRow] rfl).1,
    (C8_week_window [⟨some 1, "A", "01/01/2024"⟩] [] [sampleRow] rfl).2
      19723 (by decide)⟩

/-- C9: the output rows are sorted ascending by `week_start` and, within a
week, ascending by `agent`; the `(week_start, agent)` keys are pairwise
distinct and are exactly the distinct group keys of the cleaned viewing
events (one row per group). -/
theorem C9_ordered_unique (vs : List RawViewing) (ps : List Prospect)
    (rows : List Row) (h : load vs ps = .ok rows) :
    rows.Pairwise rowLE ∧
    (rows.map fun r => (r.week_start, r.agent)).Nodup ∧
    ∀ cl, cleanedViewings vs = .ok cl →
      (rows.map fun r => (r.week_start, r.agent)).Perm
        (cl.map viewKey).dedup := by
  obtain ⟨cl, hc, rfl⟩ := load_eq_ok h
  have hmapkey :
      ((((cl.map viewKey).dedup).insertionSort keyLE).map (mkRow cl ps)).map
        (fun r => (r.week_start, r.agent)) =
      ((cl.map viewKey).dedup).insertionSort keyLE := by
    rw [List.map_map]
    have hcomp : ((fun r : Row => (r.week_start, r.agent)) ∘ mkRow cl ps) =
        id := funext fun k => rfl
    rw [hcomp, List.map_id]
  refine ⟨?_, ?_, ?_⟩
  · have hs : (((cl.map viewKey).dedup).insertionSort keyLE).Sorted keyLE :=
      List.sorted_insertionSort keyLE _
    rw [List.pairwise_map]
    exact hs.imp fun hab => hab
  · rw [hmapkey]
    exact ((List.perm_insertionSort keyLE _).nodup_iff).mpr
      (List.nodup_dedup _)
  · intro cl' hc'
    rw [hc] at hc'
    injection hc' with hc'
    subst hc'
    rw [hmapkey]
    exact List.perm_insertionSort keyLE _

theorem C9_witness :
    load [⟨some 1, "A", "01/01/2024"⟩] [] = .ok [sampleRow] ∧
    [sampleRow].Pairwise rowLE ∧
    ([sampleRow].map fun r => (r.week_start, r.agent)).Nodup :=
  ⟨rfl,
    (C9_ordered_unique [⟨some 1, "A", "01/01/2024"⟩] [] [sampleRow] rfl).1,
    (C9_ordered_unique [⟨some 1, "A", "01/01/2024"⟩] [] [sampleRow] rfl).2.1⟩

end AskVinny
